import Mathlib

/-!
Verification development for the `mk` build utility (a Go reimplementation of
Plan 9 mk).  The repository contains two generations of code: a newer line
parser and graph walker (`reader.go`, `graph.go`, `lex.go`, `main.go`) and an
older token-based pipeline (`parse.go`, `recipe.go` and the unnamed files:
the expansion engine, the state-function lexer, and the rule set / scheduler).

All Go strings are modelled at rune granularity as `List Char`.  Every slice
index the Go code takes lies on a rune boundary (the code only searches for
ASCII characters and always advances by decoded rune widths), so the rune
model is observationally faithful for valid UTF-8 input.  Go runtime panics
(slice out of range) are modelled as `GoErr.crash`; loops whose progress the
Go code does not guarantee are given explicit fuel, and fuel exhaustion is the
distinct value `GoErr.fuelOut`, so a `crash` result is never an artefact of
the fuel choice.
-/

/-- Go strings at rune granularity. -/
abbrev Str := List Char

/-- Abnormal outcomes of running modelled Go code: a runtime panic
(out-of-range slice), or exhaustion of the explicit fuel that stands in for a
loop whose progress Go does not guarantee. -/
inductive GoErr where
  | crash : GoErr
  | fuelOut : GoErr
deriving DecidableEq, Repr

/-- Results of modelled Go computations. -/
abbrev GoM (α : Type) := Except GoErr α

/-- Decidable equality for modelled results. -/
instance {ε α : Type} [DecidableEq ε] [DecidableEq α] : DecidableEq (Except ε α) :=
  fun a b =>
    match a, b with
    | .ok x, .ok y => decidable_of_iff (x = y) (by simp)
    | .error x, .error y => decidable_of_iff (x = y) (by simp)
    | .ok _, .error _ => isFalse (by simp)
    | .error _, .ok _ => isFalse (by simp)

/-- Membership of a character in a set given as a list, mirroring Go's
`strings.ContainsRune` / `strings.IndexAny` character sets. -/
def charIn (s : List Char) (c : Char) : Bool :=
  s.contains c

/-- Model of `strings.IndexAny input chars`: index of the first character of
`input` drawn from `chars`, or `none` for Go's `-1`. -/
def strIndexAny (input : Str) (chars : List Char) : Option Nat :=
  input.findIdx? (charIn chars)

/-- Model of `utf8.DecodeRuneInString`: on the empty string Go returns
`(RuneError, 0)`; otherwise the first rune and its width (one in the rune
model). -/
def goDecodeRune : Str → Char × Nat
  | [] => ('�', 0)
  | c :: _ => (c, 1)

/-- The Latin-1 fragment of `unicode.IsSpace`; the inputs the claims exercise
are ASCII, where this is exact. -/
def goIsSpace (c : Char) : Bool :=
  c = ' ' || c = '\t' || c = '\n' ||
    c = Char.ofNat 11 || c = Char.ofNat 12 || c = '\r' ||
    c = Char.ofNat 133 || c = Char.ofNat 160

/-- Model of `strings.TrimSpace`. -/
def goTrimSpace (s : Str) : Str :=
  ((s.dropWhile goIsSpace).reverse.dropWhile goIsSpace).reverse

/-- Decimal representation of a natural number, for Go's `fmt.Sprintf("%d")`
and `strconv`-style formatting. -/
def natStr (n : Nat) : Str :=
  (Nat.repr n).data

/-- Model of `strings.Cut s sep` for a single-character separator: split at
the first occurrence, `none` when the separator does not occur. -/
def strCut (s : Str) (sep : Char) : Option (Str × Str) :=
  match s.findIdx? (fun c => c = sep) with
  | none => none
  | some j => some (s.take j, s.drop (j + 1))

set_option linter.unusedVariables false in
/-- Left-to-right, non-overlapping `strings.ReplaceAll s pat rep`.  The Go
code only uses nonempty patterns; for the empty pattern the model returns the
input unchanged. -/
def goReplaceAll (s pat rep : Str) : Str :=
  match hp : pat with
  | [] => s
  | _ :: _ =>
    match s with
    | [] => []
    | c :: cs =>
      if pat.isPrefixOf (c :: cs) then
        rep ++ goReplaceAll ((c :: cs).drop pat.length) pat rep
      else
        c :: goReplaceAll cs pat rep
termination_by s.length
decreasing_by
  · simp_all
    omega
  · simp_all

/-!
  ## Expansion engine (string substitution file, `expand` / `expandSigil` /
`expandSuffixes`)

The variable environment is a total model of the Go `map[string][]string`
(`none` = key absent) and the process environment models `os.LookupEnv`.
Backtick command substitution runs a subprocess in Go; it is modelled by an
oracle giving the word list the subshell's output lexes to.
-/

/-- The in-memory variable environment `map[string][]string`. -/
abbrev Env := Str → Option (List Str)

/-- The process environment consulted by `os.LookupEnv`. -/
abbrev ProcEnv := Str → Option Str

/-- Oracle for backtick command substitution: the word list produced by
running the quoted text through the shell and lexing its output. -/
abbrev BtOracle := Str → List Str

/-- Model of `isValidVarName`: in the Go source both the first-character and
the subsequent-character branch test the identical predicate
(letter, digit or underscore), and the empty string passes vacuously. -/
def isValidVarName (v : Str) : Bool :=
  v.all (fun c => c.isAlpha || c.isDigit || c = '_')

/-- Character class `\s` of Go's `regexp` package. -/
def isRegexSpace (c : Char) : Bool :=
  c = ' ' || c = '\t' || c = '\n' || c = Char.ofNat 12 || c = '\r'

/-- Model of matching `expandSigil_namelist_pattern`, the anchored regular
expression `^\s*([^:]+)\s*:\s*([^%]*)%([^=]*)\s*=\s*([^%]*)%([^%]*)\s*`
against the brace contents.  Greedy matching with backtracking resolves to:
group 1 is the text from `min(whitespace-prefix, colon-1)` up to the first
colon, group 2 the text between the colon and the first following `%`
(less a leading whitespace run), group 3 the text up to the first `=` after
that, group 4 likewise up to the next `%`, and group 5 the run of
non-`%` characters after it; the expression is unanchored at the end. -/
def namelistMatch (s : Str) : Option (Str × Str × Str × Str × Str) :=
  match s.findIdx? (fun c => c = ':') with
  | none => none
  | some k =>
    if k = 0 then none else
    let w := (s.takeWhile isRegexSpace).length
    let start := min w (k - 1)
    let g1 := (s.drop start).take (k - start)
    let t := s.drop (k + 1)
    match t.findIdx? (fun c => c = '%') with
    | none => none
    | some m1 =>
      let w2 := (t.takeWhile isRegexSpace).length
      let g2 := (t.drop w2).take (m1 - w2)
      let u := t.drop (m1 + 1)
      match u.findIdx? (fun c => c = '=') with
      | none => none
      | some e1 =>
        let g3 := u.take e1
        let v := u.drop (e1 + 1)
        match v.findIdx? (fun c => c = '%') with
        | none => none
        | some m2 =>
          let w3 := (v.takeWhile isRegexSpace).length
          let g4 := (v.drop w3).take (m2 - w3)
          let z := v.drop (m2 + 1)
          let g5 := z.takeWhile (fun c => c ≠ '%')
          some (g1, g2, g3, g4, g5)

/-- Model of matching the compiled pattern `^\Qa\E(.*)\Qb\E$` against a
value: the value must be literally `a`, then an arbitrary middle (returned),
then literally `b`. -/
def valuePatMatch (a b value : Str) : Option Str :=
  if a.isPrefixOf value && b.isSuffixOf (value.drop a.length) then
    some ((value.drop a.length).take (value.length - a.length - b.length))
  else
    none

/-- Model of `expandEscape`: expand one rune following a backslash. -/
def expandEscape (input : Str) : Str × Nat :=
  let (c, w) := goDecodeRune input
  if c = '\t' || c = ' ' then ([c], w)
  else if c = '\n' then ([], w)
  else ('\\' :: [c], w)

/-- Model of `expandSingleQuoted`: literal text up to the next single
quote. -/
def expandSingleQuoted (input : Str) : Str × Nat :=
  match input.findIdx? (fun c => c = Char.ofNat 39) with
  | none => (input, input.length)
  | some j => (input.take j, j + 1)

/-- Model of `expandBackQuoted` (minus the subprocess I/O error paths): the
text up to the next backtick is run through the oracle. -/
def expandBackQuoted (bt : BtOracle) (input : Str) : List Str × Nat :=
  match input.findIdx? (fun c => c = '`') with
  | none => ([input], input.length)
  | some j => (bt (input.take j), j + 1)

/-- Scan of a bare variable name after `$`: a maximal run beginning with a
letter or underscore, continuing with letters, digits or underscores
(digits are excluded at the first position, `j > i` in the Go code). -/
def scanIdent (input : Str) : Nat :=
  match input with
  | [] => 0
  | c :: cs =>
    if c.isAlpha || c = '_' then
      1 + (cs.takeWhile (fun d => d.isAlpha || d = '_' || d.isDigit)).length
    else 0

/-- The special characters `expand` scans for (`strings.IndexAny` set). -/
def expandSpecials : List Char :=
  ['"', Char.ofNat 39, '`', '$', '\\']

/-- The shared variable lookup of `expandSigil`: the in-memory environment,
then the process environment; a missing valid name preserves the sigil text,
a missing invalid name preserves the dollar and the whole remaining input. -/
def expandSigilLookup (input varname : Str) (offset : Nat) (vars : Env)
    (penv : ProcEnv) : GoM (List Str × Nat) :=
  if isValidVarName varname then
    match vars varname with
    | some vs => .ok (vs, offset)
    | none =>
      match penv varname with
      | some v => .ok ([v], offset)
      | none => .ok (['$' :: input.take offset], offset)
  else
    match penv varname with
    | some v => .ok ([v], offset)
    | none => .ok (['$' :: input], input.length)

mutual

/-- Model of `expand`: expand a word against the variable environment,
producing the list of resulting words.  `fuel` bounds the recursion that the
Go code does not structurally bound (quoted sub-expansion and the namelist
rewrite, which can in fact recurse unboundedly); every recursive call of the
model consumes one unit, so any sufficiently large fuel gives the Go
behaviour. -/
def expand : Nat → Str → Env → ProcEnv → BtOracle → Bool → GoM (List Str)
  | 0, _, _, _, _, _ => .error .fuelOut
  | fuel + 1, input, vars, penv, bt, ebt => expandLoop fuel [] [] input vars penv bt ebt
termination_by structural fuel => fuel

/-- The scanning loop of `expand`: `parts` are the completed words, `acc`
the partial word being accumulated.  The slice `input = input[off:]` after
the sigil case crashes when the returned offset overshoots the remaining
input, which happens for `$$` at the end of a word. -/
def expandLoop : Nat → List Str → Str → Str → Env → ProcEnv → BtOracle → Bool →
    GoM (List Str)
  | 0, _, _, _, _, _, _, _ => .error .fuelOut
  | fuel + 1, parts, acc, input, vars, penv, bt, ebt =>
    if input.isEmpty then
      .ok (if acc.isEmpty then parts else parts ++ [acc])
    else
      match strIndexAny input expandSpecials with
      | none => .ok (parts ++ [acc ++ input])
      | some j =>
        let acc := acc ++ input.take j
        match input.drop j with
        | [] => .error .crash
        | c :: input' =>
          if c = '\\' then
            let (out, off) := expandEscape input'
            expandLoop fuel parts (acc ++ out) (input'.drop off) vars penv bt ebt
          else if c = '"' then
            match expandDoubleQuoted fuel 0 input' vars penv bt ebt with
            | .error e => .error e
            | .ok (out, off) =>
              expandLoop fuel parts (acc ++ out) (input'.drop off) vars penv bt ebt
          else if c = Char.ofNat 39 then
            let (out, off) := expandSingleQuoted input'
            expandLoop fuel parts (acc ++ out) (input'.drop off) vars penv bt ebt
          else if c = '`' then
            if ebt then
              let (outparts, off) := expandBackQuoted bt input'
              match outparts with
              | [] => expandLoop fuel parts acc (input'.drop off) vars penv bt ebt
              | p0 :: prest =>
                let modified := (acc ++ p0) :: prest
                expandLoop fuel (parts ++ modified.dropLast)
                  (modified.getLastD []) (input'.drop off) vars penv bt ebt
            else
              expandLoop fuel parts (acc ++ input') [] vars penv bt ebt
          else
            match expandSigil fuel input' vars penv bt with
            | .error e => .error e
            | .ok (outparts, off) =>
              if input'.length < off then .error .crash
              else
                match outparts with
                | [] => expandLoop fuel parts acc (input'.drop off) vars penv bt ebt
                | p0 :: prest =>
                  let firstpart := acc ++ p0
                  if prest.isEmpty then
                    expandLoop fuel parts firstpart (input'.drop off) vars penv bt ebt
                  else
                    expandLoop fuel (parts ++ firstpart :: prest.dropLast)
                      (prest.getLastD []) (input'.drop off) vars penv bt ebt
termination_by structural fuel => fuel

/-- Model of the scanning loop of `expandDoubleQuoted`: find the first
unescaped double quote, recursively expanding the span before it; an
unterminated span returns the whole input. -/
def expandDoubleQuoted : Nat → Nat → Str → Env → ProcEnv → BtOracle → Bool →
    GoM (Str × Nat)
  | 0, _, _, _, _, _, _ => .error .fuelOut
  | fuel + 1, i, input, vars, penv, bt, ebt =>
    match strIndexAny (input.drop i) ['"', '\\'] with
    | none => .ok (input, input.length)
    | some j0 =>
      let j := j0 + i
      let (c, w) := goDecodeRune (input.drop j)
      let i' := j + w
      if c = '"' then
        match expand fuel (input.take j) vars penv bt ebt with
        | .error e => .error e
        | .ok ps => .ok (List.intercalate [' '] ps, i')
      else
        if i' < input.length then
          expandDoubleQuoted fuel (i' + (goDecodeRune (input.drop i')).2)
            input vars penv bt ebt
        else .ok (input, input.length)
termination_by structural fuel => fuel

/-- Model of `expandSigil`: expand the text following a `$`.  The Go code
returns the replacement words and the offset (counted from just after the
`$`) at which scanning resumes; the `$$` branch returns offset 2 although the
second dollar is only one character into the input.  Called on empty input
(a word ending in a lone `$`), the Go slice `input[:1]` is out of range. -/
def expandSigil : Nat → Str → Env → ProcEnv → BtOracle → GoM (List Str × Nat)
  | 0, _, _, _, _ => .error .fuelOut
  | fuel + 1, input, vars, penv, bt =>
    let (c, w) := goDecodeRune input
    if c = '$' then
      .ok ([['$']], 2)
    else if c = '{' then
      match (input.drop w).findIdx? (fun d => d = '}') with
      | none => .ok (['$' :: input], input.length)
      | some j =>
        let varname := (input.drop w).take j
        let offset := w + j + 1
        match namelistMatch varname with
        | some (g1, a, b, cc, d) =>
          if isValidVarName g1 then
            match vars g1 with
            | none => .ok ([], offset)
            | some values =>
              match expandNamelistValues fuel values a b cc d vars penv bt with
              | .error e => .error e
              | .ok vals => .ok (vals, offset)
          else expandSigilLookup input varname offset vars penv
        | none => expandSigilLookup input varname offset vars penv
    else
      let j := scanIdent input
      if j > 0 then
        expandSigilLookup input (input.take j) j vars penv
      else
        if input.length < 1 then .error .crash
        else .ok (['$' :: input.take 1], 1)
termination_by structural fuel => fuel

/-- The namelist rewrite loop inside `expandSigil`: each value matching
`^\Qa\E(.*)\Qb\E$` is replaced by the full expansion (backticks disabled) of
`c ++ stem ++ d`; non-matching values pass through unchanged. -/
def expandNamelistValues : Nat → List Str → Str → Str → Str → Str → Env → ProcEnv →
    BtOracle → GoM (List Str)
  | 0, _, _, _, _, _, _, _, _ => .error .fuelOut
  | _ + 1, [], _, _, _, _, _, _, _ => .ok []
  | fuel + 1, v :: vs, a, b, cc, d, vars, penv, bt =>
    match valuePatMatch a b v with
    | some s =>
      match expand fuel (cc ++ s ++ d) vars penv bt false with
      | .error e => .error e
      | .ok ws =>
        match expandNamelistValues fuel vs a b cc d vars penv bt with
        | .error e => .error e
        | .ok rest => .ok (ws ++ rest)
    | none =>
      match expandNamelistValues fuel vs a b cc d vars penv bt with
      | .error e => .error e
      | .ok rest => .ok (v :: rest)
termination_by structural fuel => fuel

end

/-- The scanning loop of `expandSuffixes`, carrying the byte index `i` into
the ORIGINAL input.  The Go code forgets to rebase the relative result `j` of
`strings.IndexAny(input[i:], ...)`, then slices `input[i:j]` with the
unrebased `j` and decodes at `input[j:]`; once `i > 0` this crashes (when
`j < i`) or produces wrong output, and in the branch where a backslash is not
followed by `%` neither `i` nor the accumulator advances, so the Go loop
spins forever (modelled by fuel exhaustion). -/
def expandSuffixesLoop : Nat → Str → Str → Nat → Str → GoM Str
  | 0, _, _, _, _ => .error .fuelOut
  | fuel + 1, input, stem, i, acc =>
    if i < input.length then
      match strIndexAny (input.drop i) ['\\', '%'] with
      | none => .ok (acc ++ input.drop i)
      | some j =>
        let (c, w) := goDecodeRune (input.drop j)
        if j < i then .error .crash
        else
          let acc := acc ++ (input.drop i).take (j - i)
          if c = '%' then
            expandSuffixesLoop fuel input stem (j + w) (acc ++ stem)
          else
            let j2 := j + w
            let (c2, w2) := goDecodeRune (input.drop j2)
            if c2 = '%' then
              expandSuffixesLoop fuel input stem (j2 + w2) (acc ++ ['%'])
            else
              expandSuffixesLoop fuel input stem i acc
    else .ok acc

/-- Model of `expandSuffixes`: intended to replace every unescaped `%` by the
stem and `\%` by a literal `%`. -/
def expandSuffixes (fuel : Nat) (input stem : Str) : GoM Str :=
  expandSuffixesLoop fuel input stem 0 []

/-!
  ## Claims about the expansion engine (C5, C6, C7, C10)
-/

/-- C5: the claim states that `$$` expands to a single literal `$` with
expansion resuming immediately after the second `$`.  In the code,
`expandSigil` is called on the text following the first `$` but its `$$`
branch reports offset 2, so the caller skips the second `$` AND the next
character: expanding `a$$b` yields the single word `a$` (the `b` is
swallowed), and a word ending in `$$` slices out of range.  (The other half
of the claim, unknown `${name}` passing through verbatim, is correct.) -/
theorem c5_dollar_dollar_swallows_next_char :
    expand 50 ("a$$b").data (fun _ => none) (fun _ => none) (fun _ => []) false =
      .ok [("a$").data] ∧
    ("a$").data ≠ ("a$b").data ∧
    expand 50 ("$$").data (fun _ => none) (fun _ => none) (fun _ => []) false =
      .error .crash ∧
    expand 50 ("a${q}b").data (fun _ => none) (fun _ => none) (fun _ => []) false =
      .ok [("a${q}b").data] := by
  refine ⟨by decide, by decide, by decide, by decide⟩

/-- C6 counterexample: with `x` bound to `[a, b, c]` (and nothing else bound
anywhere), expanding the word `pre$xpost` does NOT yield `prea`, `b`,
`cpost`: the bare-sigil scanner takes the maximal identifier `xpost`, which
is unbound, so the word passes through as the single word `pre$xpost`. -/
theorem c6_counterexample_greedy_identifier :
    expand 50 ("pre$xpost").data
        (fun n => if n = ("x").data then
          some [("a").data, ("b").data, ("c").data] else none)
        (fun _ => none) (fun _ => []) false =
      .ok [("pre$xpost").data] ∧
    [("pre$xpost").data] ≠ [("prea").data, ("b").data, ("cpost").data] := by
  refine ⟨by decide, by decide⟩

/-- C6 (amended): bare `$name` takes the maximal identifier, so the word must
be written `pre${x}post` for the claimed splitting; with `x` bound to
`[a, b, c]` in any variable environment, any process environment and any
backtick oracle, expanding `pre${x}post` yields exactly the words `prea`,
`b`, `cpost`: the accumulator becomes the prefix of the first value,
intermediate values are standalone words, and the last value prefixes the
following text. -/
theorem c6_list_splitting_braced (vars : Env) (penv : ProcEnv) (bt : BtOracle)
    (h : vars ("x").data = some [("a").data, ("b").data, ("c").data]) :
    expand 50 ("pre${x}post").data vars penv bt false =
      .ok [("prea").data, ("b").data, ("cpost").data] := by
  have hv : vars = fun n => if n = ("x").data then
      some [("a").data, ("b").data, ("c").data] else vars n := by
    funext n
    by_cases hn : n = ("x").data
    · rw [hn, h]
      simp
    · simp [hn]
  rw [hv]
  rfl

/-- C6 amended-claim witness at a concrete environment. -/
theorem c6_list_splitting_braced_witness :
    expand 50 ("pre${x}post").data
        (fun n => if n = ("x").data then
          some [("a").data, ("b").data, ("c").data] else none)
        (fun _ => none) (fun _ => []) false =
      .ok [("prea").data, ("b").data, ("cpost").data] :=
  c6_list_splitting_braced _ _ _ (by decide)

/-- C7: the claim states that `expandSuffixes` replaces every unescaped `%`,
in particular for two or more of them.  The code forgets to rebase the
relative index returned by `strings.IndexAny(input[i:], ...)`: with stem `X`,
`a%b%c` panics (slice `input[2:1]`), `%aaaa%` yields the wrong output
`Xaaa%` instead of `XaaaaX`, and an input whose backslash escapes a
non-`%` character (`a\bc`) makes the Go loop spin forever — for every fuel
and accumulator the model runs out of fuel.  Single-occurrence inputs such as
`a%b` do behave as claimed. -/
theorem c7_expandSuffixes_unrebased_index :
    expandSuffixes 50 ("a%b%c").data ("X").data = .error .crash ∧
    expandSuffixes 50 ("%aaaa%").data ("X").data = .ok ("Xaaa%").data ∧
    ("Xaaa%").data ≠ ("XaaaaX").data ∧
    expandSuffixes 50 ("a%b").data ("X").data = .ok ("aXb").data ∧
    expandSuffixes 50 ("a\\%b").data ("X").data = .ok ("a%b").data ∧
    (∀ (fuel : Nat) (acc : Str),
      expandSuffixesLoop fuel ("a\\bc").data ("X").data 0 acc = .error .fuelOut) := by
  refine ⟨by decide, by decide, by decide, by decide, by decide, ?_⟩
  intro fuel
  induction fuel with
  | zero => intro acc; rfl
  | succ n ih =>
    intro acc
    show expandSuffixesLoop n _ _ 0 (acc ++ ("a").data) = .error .fuelOut
    exact ih _

/-- C10: the claim states that `expand`, `expandSigil` and `expandSuffixes`
always return without panicking, in particular on a word ending in `$$` and
on inputs with two or more unescaped `%`.  All of these panic in the code:
a word ending in `$$` (offset-2 bug) or in a lone `$` (`expandSigil` slices
`input[:1]` on empty input) slices out of range, as does `expandSuffixes` on
`a%b%c` (unrebased index). -/
theorem c10_expansion_panics :
    expand 50 ("$$").data (fun _ => none) (fun _ => none) (fun _ => []) false =
      .error .crash ∧
    expand 50 ("x$").data (fun _ => none) (fun _ => none) (fun _ => []) false =
      .error .crash ∧
    expandSigil 50 [] (fun _ => none) (fun _ => none) (fun _ => []) =
      .error .crash ∧
    expandSuffixes 50 ("a%b%c").data ("X").data = .error .crash := by
  refine ⟨by decide, by decide, by decide, by decide⟩

/-!
  ## Graph builder and scheduler (`graph.go`)

The new-generation graph walker: `Target` / `CompileTarget` (the non-regex
branches; no claim exercises regex targets), `FindRule`, `isOutdated`, and
the recursive `Build` / `BuildRule`.  The filesystem is a map from file name
to modification time (`none` = the file does not exist, so `os.Stat` errors),
and recipe execution is an oracle giving the subprocess's success.
-/

/-- The kind of a compiled (non-regex) target pattern: a `%`-suffix pattern,
the `&`-variant recognised by the same code path, or a constant name. -/
inductive TKind where
  | suffix (pre post : Str) : TKind
  | amp (pre post : Str) : TKind
  | const : TKind
deriving DecidableEq, Repr

/-- Model of `graph.go`'s `Target`: the pattern text plus the matcher the
closure `match` captures; `constant` is true exactly in the `const` case. -/
structure Target where
  pat : Str
  kind : TKind
deriving DecidableEq, Repr

/-- Model of `CompileTarget pat false` (the regex branch is not exercised by
any claim): cut at the first `%`, else at the first `&`, else constant.  The
second component is the returned `constant` flag. -/
def CompileTarget (pat : Str) : Target × Bool :=
  match strCut pat '%' with
  | some (pre, post) => (⟨pat, .suffix pre post⟩, false)
  | none =>
    match strCut pat '&' with
    | some (pre, post) => (⟨pat, .amp pre post⟩, false)
    | none => (⟨pat, .const⟩, true)

/-- The matcher closure of a `Target`: on success Go returns
`(stem, submatches, true)`, modelled as `some (stem, subm)`.  For suffix and
`&` patterns the stem is `input[len(pre) : len(input)-len(post)]`; when
prefix and suffix overlap Go would panic on that slice, which no claim
reaches — the model truncates the slice instead. -/
def matchTarget (t : Target) (input : Str) : Option (Str × List Str) :=
  match t.kind with
  | .suffix pre post =>
    if pre.isPrefixOf input && post.isSuffixOf input then
      some ((input.drop pre.length).take (input.length - post.length - pre.length), [])
    else none
  | .amp pre post =>
    if pre.isPrefixOf input && post.isSuffixOf input then
      some ((input.drop pre.length).take (input.length - post.length - pre.length), [])
    else none
  | .const => if input = t.pat then some ([], []) else none

/-- The `RuleAttr` bit set of `reader.go`, one Boolean per declared bit. -/
structure RuleAttrs where
  ruleDelete : Bool
  ruleContinue : Bool
  ruleAlwaysUpdate : Bool
  ruleMeta : Bool
  ruleQuiet : Bool
  ruleRegex : Bool
  ruleNoValidate : Bool
  ruleVirtual : Bool
deriving DecidableEq, Repr

/-- The zero value of `RuleAttr` (no bits set). -/
def RuleAttrs.zero : RuleAttrs :=
  ⟨false, false, false, false, false, false, false, false⟩

/-- Model of `graph.go`'s `Rule`. -/
structure Rule where
  filename : Str
  linenr : Nat
  attrs : RuleAttrs
  program : Str
  targets : List Target
  prereqs : List Str
  recipe : Str
deriving DecidableEq, Repr

/-- The inner loop of `FindRule` over one rule's targets: the first matching
target wins. -/
def ruleMatchTargets (r : Rule) (target : Str) : Option (Str × List Str) :=
  r.targets.findSome? (fun t => matchTarget t target)

/-- Model of `Graph.FindRule`: scan ALL rules in definition order (no
literal-first preference, no target index) and return the first whose target
matches, with its stem and submatches. -/
def FindRule (rules : List Rule) (target : Str) : Option (Rule × Str × List Str) :=
  rules.findSome? (fun r => (ruleMatchTargets r target).map (fun sm => (r, sm.1, sm.2)))

/-- The filesystem visible through `os.Stat`: modification time, or `none`
when the file does not exist. -/
abbrev Fs := Str → Option Int

/-- Oracle for recipe subprocess execution: whether `shell -c recipe` for
this rule and target exits zero. -/
abbrev Exec := Rule → Str → Bool

/-- Model of `isOutdated`: a missing target or a missing prereq is outdated;
otherwise outdated iff some prereq's mtime is strictly after the target's. -/
def isOutdated (fs : Fs) (target : Str) (prereqs : List Str) : Bool :=
  match fs target with
  | none => true
  | some tt =>
    prereqs.any (fun p =>
      match fs p with
      | none => true
      | some pt => tt < pt)

/-- The prereq template substitution in `BuildRule`: replace `%` by the stem
(when the stem is nonempty) and `\k` by submatch `k`. -/
def substPrereq (stem : Str) (subm : List Str) (p : Str) : Str :=
  let p := if stem.isEmpty then p else goReplaceAll p ['%'] stem
  subm.enum.foldl (fun acc is => goReplaceAll acc ('\\' :: natStr is.1) is.2) p

/-- `strings.Join(history, "->")`. -/
def joinArrow (xs : List Str) : Str :=
  List.intercalate ['-', '>'] xs

/-- Model of `errors.Join` over the per-prereq results: nil errors are
discarded; all nil gives nil; otherwise the messages joined by newlines. -/
def joinErrors (vals : List (Option Str)) : Option Str :=
  let msgs := vals.filterMap id
  if msgs.isEmpty then none else some (List.intercalate ['\n'] msgs)

mutual

/-- Model of `Graph.Build`: find a rule and build it; a rule-less name
succeeds iff it exists on disk, else `don't know how to make`.  The result
is the returned Go `error` (`none` = nil). -/
def Build : Nat → List Rule → Fs → Exec → List Str → Str → GoM (Option Str)
  | 0, _, _, _, _, _ => .error .fuelOut
  | fuel + 1, rules, fs, exec, history, target =>
    match FindRule rules target with
    | some (r, stem, subm) => BuildRule fuel rules fs exec r history target stem subm
    | none =>
      if (fs target).isSome then .ok none
      else .ok (some (("don't know how to make `").data ++ target ++ ("`").data))

/-- Model of `Graph.BuildRule`.  The cycle check compares the target against
the history accumulated since the root of this `Build` call and reports the
whole history plus the revisited target.  Note the Go code appends every
prereq's (possibly nil) error to `errs`, so whenever the rule has at least
one prereq it returns `errors.Join(errs...)` before ever consulting
`isOutdated` or running the recipe. -/
def BuildRule : Nat → List Rule → Fs → Exec → Rule → List Str → Str → Str →
    List Str → GoM (Option Str)
  | 0, _, _, _, _, _, _, _, _ => .error .fuelOut
  | fuel + 1, rules, fs, exec, r, history, target, stem, subm =>
    if history.contains target then
      .ok (some (("circular dependency: ").data ++ joinArrow (history ++ [target])))
    else
      let history := history ++ [target]
      let prereqs := r.prereqs.map (substPrereq stem subm)
      match BuildList fuel rules fs exec history prereqs with
      | .error e => .error e
      | .ok results =>
        if results.length > 0 then .ok (joinErrors results)
        else if !(isOutdated fs target prereqs) then .ok none
        else if r.recipe.isEmpty then .ok none
        else if exec r target then .ok none
        else .ok (some (r.filename ++ (":").data ++ natStr r.linenr ++
          (": unable to build").data))

/-- The per-prereq builds of `BuildRule` (concurrent goroutines in Go,
joined before use; modelled in definition order — no claim depends on the
collection order). -/
def BuildList : Nat → List Rule → Fs → Exec → List Str → List Str →
    GoM (List (Option Str))
  | 0, _, _, _, _, _ => .error .fuelOut
  | _ + 1, _, _, _, _, [] => .ok []
  | fuel + 1, rules, fs, exec, history, p :: ps =>
    match Build fuel rules fs exec history p with
    | .error e => .error e
    | .ok v =>
      match BuildList fuel rules fs exec history ps with
      | .error e => .error e
      | .ok vs => .ok (v :: vs)

end

/-!
  ## Scheduler up-to-dateness (`mkNode` in the old-generation scheduler)

The pure decision core of `mkNode`: given the selected edge's rule
attributes, the node's (re-stat-ed) existence flag and mtime, and the built
prereqs' mtimes and statuses, whether the node is up to date and which final
status it reaches.  (`updateTimestamp` itself only re-stats the target; its
result is the `uexists`/`ut` input here.  The concurrency around this core —
mutexes, listener channels, the subprocess semaphore — is orthogonal to the
decision and not modelled.) -/

/-- Node build states of the old-generation scheduler. -/
inductive nodeStatus where
  | ready | started | done | nop | failed
deriving DecidableEq, Repr

/-- The up-to-dateness computation of `mkNode` (the `uptodate` variable):
virtual targets are always out of date; otherwise a required missing target
is out of date, and an existing (or required) target is out of date when some
prereq is strictly newer or finished `Done` this run; force flags override.
The third Go branch (`else if required`) is unreachable but transcribed. -/
def mkNodeUptodate (virtualAttr uexists required : Bool) (ut : Int)
    (prereqs : List (Int × nodeStatus)) (isrebuildtarget rebuildall : Bool) : Bool :=
  let uptodate :=
    if !virtualAttr then
      if !uexists && required then false
      else if uexists || required then
        !(prereqs.any (fun p => ut < p.1 || p.2 = nodeStatus.done))
      else if required then false
      else true
    else false
  if isrebuildtarget || rebuildall then false else uptodate

/-- The recipe-execution guard of `mkNode`: at this point `finalstatus` is
still `Done` (the prereq pass's result is not assigned to it), so the guard
reduces to out-of-date and a nonempty recipe. -/
def mkNodeRunsRecipe (uptodate recipeNonempty : Bool) : Bool :=
  !uptodate && recipeNonempty

/-- The final status `mkNode` stores and broadcasts: `Failed` when the
recipe ran and failed, `Done` when it ran and succeeded, `Nop` otherwise. -/
def mkNodeFinal (uptodate recipeNonempty recipeOk : Bool) : nodeStatus :=
  if mkNodeRunsRecipe uptodate recipeNonempty then
    (if recipeOk then .done else .failed)
  else .nop

/-!
  ## Claims about the graph builder and scheduler (C2, C3, C9)
-/

/-- A meta-rule (suffix pattern `%.o`) defined BEFORE a literal rule for
`foo.o`. -/
def c2MetaRule : Rule :=
  ⟨("mkfile").data, 1, RuleAttrs.zero, [], [(CompileTarget (("%.o").data)).1],
    [("%.c").data], ("cc").data⟩

/-- A literal rule for `foo.o` defined after the meta-rule. -/
def c2LitRule : Rule :=
  ⟨("mkfile").data, 2, RuleAttrs.zero, [], [(CompileTarget (("foo.o").data)).1],
    [], ("touch foo.o").data⟩

/-- C2 counterexample: `foo.o` is matched both by the literal rule
`c2LitRule` and by the earlier-defined meta-rule `c2MetaRule`; `FindRule`
returns the meta-rule, not the literal one, because it scans all rules in
definition order with no literal-first preference. -/
theorem c2_counterexample_meta_defined_first :
    FindRule [c2MetaRule, c2LitRule] ("foo.o").data =
      some (c2MetaRule, ("foo").data, []) ∧
    c2MetaRule ≠ c2LitRule := by
  refine ⟨by decide, by decide⟩

/-- C2 (amended): `FindRule` selects the first rule in definition order any
of whose target patterns (literal or meta) matches the name; a literal rule
wins only when no earlier-defined rule matches. -/
theorem c2_first_match_in_definition_order (rs1 rs2 : List Rule) (r : Rule)
    (t stem : Str) (subm : List Str)
    (h1 : ∀ r' ∈ rs1, ruleMatchTargets r' t = none)
    (h2 : ruleMatchTargets r t = some (stem, subm)) :
    FindRule (rs1 ++ r :: rs2) t = some (r, stem, subm) := by
  induction rs1 with
  | nil => simp [FindRule, List.findSome?_cons, h2]
  | cons a tl ih =>
    have ha : ruleMatchTargets a t = none := h1 a (by simp)
    have htl : ∀ r' ∈ tl, ruleMatchTargets r' t = none := by
      intro r' hr'
      exact h1 r' (by simp [hr'])
    simpa [FindRule, List.findSome?_cons, ha] using ih htl

/-- C2 amended-claim witness: with the literal rule first, the literal rule
is selected. -/
theorem c2_first_match_witness :
    FindRule [c2LitRule, c2MetaRule] ("foo.o").data =
      some (c2LitRule, [], []) :=
  c2_first_match_in_definition_order [] [c2MetaRule] c2LitRule
    ("foo.o").data [] [] (by intro r' hr'; cases hr') (by decide)

/-- C3: a non-virtual target that exists, all of whose prereqs exist with
mtimes strictly below the target's, with no force flag and no prereq built
`Done` this run, is not outdated (`isOutdated` of `graph.go`), is computed
up to date by the old scheduler's `mkNode`, does not run its recipe, and
finishes with status `Nop`. -/
theorem c3_fresh_target_is_nop (fs : Fs) (target : Str) (prereqNames : List Str)
    (tt : Int) (ps : List (Int × nodeStatus)) (required recipeNonempty recipeOk : Bool)
    (hT : fs target = some tt)
    (hP : ∀ p ∈ prereqNames, ∃ pt : Int, fs p = some pt ∧ pt < tt)
    (hS : ∀ q ∈ ps, q.1 < tt ∧ q.2 ≠ nodeStatus.done) :
    isOutdated fs target prereqNames = false ∧
    mkNodeUptodate false true required tt ps false false = true ∧
    mkNodeRunsRecipe (mkNodeUptodate false true required tt ps false false)
      recipeNonempty = false ∧
    mkNodeFinal (mkNodeUptodate false true required tt ps false false)
      recipeNonempty recipeOk = nodeStatus.nop := by
  have hup : mkNodeUptodate false true required tt ps false false = true := by
    simp only [mkNodeUptodate, Bool.not_false, if_true]
    simp only [Bool.false_and, Bool.or_false, Bool.false_or]
    have : ps.any (fun p => tt < p.1 || p.2 = nodeStatus.done) = false := by
      rw [List.any_eq_false]
      intro q hq
      obtain ⟨hlt, hne⟩ := hS q hq
      simp [hne]
      omega
    simp [this]
  refine ⟨?_, hup, ?_, ?_⟩
  · simp only [isOutdated, hT]
    rw [List.any_eq_false]
    intro p hp
    obtain ⟨pt, hfs, hlt⟩ := hP p hp
    simp [hfs]
    omega
  · simp [mkNodeRunsRecipe, hup]
  · simp [mkNodeFinal, mkNodeRunsRecipe, hup]

/-- C3 witness at a concrete filesystem: target `t` at mtime 5 with one
prereq `p` at mtime 3, no force, prereq finished `Nop`. -/
theorem c3_fresh_target_is_nop_witness :
    isOutdated
        (fun s => if s = ("t").data then some 5 else
          if s = ("p").data then some 3 else none)
        (("t").data) [("p").data] = false ∧
    mkNodeUptodate false true true 5 [(3, nodeStatus.nop)] false false = true ∧
    mkNodeRunsRecipe (mkNodeUptodate false true true 5 [(3, nodeStatus.nop)]
      false false) true = false ∧
    mkNodeFinal (mkNodeUptodate false true true 5 [(3, nodeStatus.nop)]
      false false) true true = nodeStatus.nop :=
  c3_fresh_target_is_nop
    (fun s => if s = ("t").data then some 5 else
      if s = ("p").data then some 3 else none)
    (("t").data) [("p").data] 5 [(3, nodeStatus.nop)] true true true
    (by decide)
    (by intro p hp
        simp only [List.mem_singleton] at hp
        subst hp
        exact ⟨3, by decide, by omega⟩)
    (by intro q hq
        simp only [List.mem_singleton] at hq
        subst hq
        exact ⟨by omega, by decide⟩)

/-- Rule `c: a` of the cycle counterexample. -/
def c9RuleC : Rule :=
  ⟨("mkfile").data, 1, RuleAttrs.zero, [], [(CompileTarget (("c").data)).1],
    [("a").data], (":").data⟩

/-- Rule `a: b` of the cycle examples. -/
def c9RuleA : Rule :=
  ⟨("mkfile").data, 2, RuleAttrs.zero, [], [(CompileTarget (("a").data)).1],
    [("b").data], (":").data⟩

/-- Rule `b: a` of the cycle examples. -/
def c9RuleB : Rule :=
  ⟨("mkfile").data, 3, RuleAttrs.zero, [], [(CompileTarget (("b").data)).1],
    [("a").data], (":").data⟩

/-- C9 counterexample: building `c` with rules `c: a`, `a: b`, `b: a`
reaches `a` a second time, but the reported error is
`circular dependency: c->a->b->a`, the whole path from the build root — not
`circular dependency: a->b->a`, the path from the revisited name to its
revisit as the claim describes. -/
theorem c9_counterexample_path_from_root :
    Build 20 [c9RuleC, c9RuleA, c9RuleB] (fun _ => none) (fun _ _ => true)
        [] (("c").data) =
      .ok (some (("circular dependency: c->a->b->a").data)) ∧
    ("circular dependency: c->a->b->a").data ≠
      ("circular dependency: a->b->a").data := by
  refine ⟨by decide, by decide⟩

/-- C9 (amended): revisiting a name already on the resolution path fails the
build with `circular dependency: ` followed by the `->`-joined path from the
target where this `Build` began through the revisited name's revisit; in
particular, building `a` with the mkfile `a: b` / `b: a` errors with
`circular dependency: a->b->a`. -/
theorem c9_cycle_error (fuel : Nat) (rules : List Rule) (fs : Fs) (exec : Exec)
    (r : Rule) (history : List Str) (target stem : Str) (subm : List Str)
    (h : history.contains target = true) :
    BuildRule (fuel + 1) rules fs exec r history target stem subm =
      .ok (some (("circular dependency: ").data ++ joinArrow (history ++ [target]))) ∧
    Build 20 [c9RuleA, c9RuleB] (fun _ => none) (fun _ _ => true) []
        (("a").data) =
      .ok (some (("circular dependency: a->b->a").data)) := by
  refine ⟨?_, by decide⟩
  have hm : target ∈ history := by
    have : history.elem target = true := h
    exact List.elem_iff.mp this
  simp only [BuildRule]
  rw [if_pos]
  exact h

/-- C9 amended-claim witness: a concrete revisit of `a` with history
`[c, a, b]` reports `circular dependency: c->a->b->a`. -/
theorem c9_cycle_error_witness :
    BuildRule 1 [] (fun _ => none) (fun _ _ => true) c9RuleA
        [("c").data, ("a").data, ("b").data] (("a").data) [] [] =
      .ok (some (("circular dependency: ").data ++
        joinArrow ([("c").data, ("a").data, ("b").data] ++ [("a").data]))) :=
  (c9_cycle_error 0 [] (fun _ => none) (fun _ _ => true) c9RuleA
    [("c").data, ("a").data, ("b").data] (("a").data) [] [] (by decide)).1

/-!
  ## Line parser of `reader.go`: attribute parsing and rule merging (C1, C4)
-/

/-- Result of `Rule.parseAttributes`: the remaining text with the updated
attribute bits and program string, or the Go error. -/
inductive AttrRes where
  | okA (text : Str) (attrs : RuleAttrs) (program : Str) : AttrRes
  | errA (msg : Str) : AttrRes
deriving DecidableEq, Repr

/-- Model of `Rule.parseAttributes` of `reader.go`: while the text contains a
colon, dispatch on its first character.  As in the source, `D` sets
`RuleContinue` and `E` sets `RuleDelete` — the opposite of the declared
meanings in the file's own attribute table.  `P` stores everything up to the
next colon (including the `P` itself) as the program.  Fuel only guards the
loop; every branch consumes input, so fuel `text.length + 1` is always
enough. -/
def parseAttributes : Nat → Str → RuleAttrs → Str → GoM AttrRes
  | 0, _, _, _ => .error .fuelOut
  | fuel + 1, text, attrs, program =>
    if text.contains ':' then
      match text with
      | [] => .ok (.okA [] attrs program)
      | c :: t =>
        if c = 'D' then
          parseAttributes fuel t
            ⟨attrs.ruleDelete, true, attrs.ruleAlwaysUpdate, attrs.ruleMeta,
             attrs.ruleQuiet, attrs.ruleRegex, attrs.ruleNoValidate,
             attrs.ruleVirtual⟩ program
        else if c = 'E' then
          parseAttributes fuel t
            ⟨true, attrs.ruleContinue, attrs.ruleAlwaysUpdate, attrs.ruleMeta,
             attrs.ruleQuiet, attrs.ruleRegex, attrs.ruleNoValidate,
             attrs.ruleVirtual⟩ program
        else if c = 'N' then
          parseAttributes fuel t
            ⟨attrs.ruleDelete, attrs.ruleContinue, true, attrs.ruleMeta,
             attrs.ruleQuiet, attrs.ruleRegex, attrs.ruleNoValidate,
             attrs.ruleVirtual⟩ program
        else if c = 'n' then
          parseAttributes fuel t
            ⟨attrs.ruleDelete, attrs.ruleContinue, attrs.ruleAlwaysUpdate, true,
             attrs.ruleQuiet, attrs.ruleRegex, attrs.ruleNoValidate,
             attrs.ruleVirtual⟩ program
        else if c = 'Q' then
          parseAttributes fuel t
            ⟨attrs.ruleDelete, attrs.ruleContinue, attrs.ruleAlwaysUpdate,
             attrs.ruleMeta, true, attrs.ruleRegex, attrs.ruleNoValidate,
             attrs.ruleVirtual⟩ program
        else if c = 'R' then
          parseAttributes fuel t
            ⟨attrs.ruleDelete, attrs.ruleContinue, attrs.ruleAlwaysUpdate,
             attrs.ruleMeta, attrs.ruleQuiet, true, attrs.ruleNoValidate,
             attrs.ruleVirtual⟩ program
        else if c = 'U' then
          parseAttributes fuel t
            ⟨attrs.ruleDelete, attrs.ruleContinue, attrs.ruleAlwaysUpdate,
             attrs.ruleMeta, attrs.ruleQuiet, attrs.ruleRegex, true,
             attrs.ruleVirtual⟩ program
        else if c = 'V' then
          parseAttributes fuel t
            ⟨attrs.ruleDelete, attrs.ruleContinue, attrs.ruleAlwaysUpdate,
             attrs.ruleMeta, attrs.ruleQuiet, attrs.ruleRegex,
             attrs.ruleNoValidate, true⟩ program
        else if c = 'P' then
          match (c :: t).findIdx? (fun d => d = ':') with
          | none => .error .crash
          | some e =>
            parseAttributes fuel ((c :: t).drop e) attrs ((c :: t).take e)
        else if c = ':' then
          parseAttributes fuel t attrs program
        else if c = ' ' || c = '\t' then
          .ok (.okA text attrs program)
        else
          .ok (.errA (("invalid rule-attribute ").data ++
            Char.ofNat 39 :: c :: [Char.ofNat 39]))
    else .ok (.okA text attrs program)

/-- Whether a recipe string counts as present in the merge logic of
`Graph.parseRule`: `strings.TrimSpace(recipe) != ""`. -/
def hasRecipeStr (s : Str) : Bool :=
  !(goTrimSpace s).isEmpty

/-- Whether two target lists are string-equal in order (`parseRule` compares
lengths and the `pat` fields pairwise). -/
def targetsEqual (a b : List Target) : Bool :=
  a.map Target.pat == b.map Target.pat

/-- The merge scan of `Graph.parseRule` (the `rulescan` loop): find an
existing rule with string-equal targets and apply the three cases; when the
targets match but no case applies, the scan CONTINUES, and if no rule
triggers a case the new rule is appended — even when its targets duplicate an
existing rule's.  In case one the existing rule keeps its own (whitespace)
recipe and only receives the new prereqs; the new recipe is dropped. -/
def parseRuleMerge (rules : List Rule) (r : Rule) : Except Str (List Rule) :=
  match rules with
  | [] => .ok [r]
  | e :: rest =>
    if targetsEqual r.targets e.targets then
      let hasRecipeA := hasRecipeStr e.recipe
      let hasRecipeB := hasRecipeStr r.recipe
      let samePrereqs : Bool := e.prereqs == r.prereqs
      if !hasRecipeA && hasRecipeB then
        .ok (⟨e.filename, e.linenr, e.attrs, e.program, e.targets,
          e.prereqs ++ r.prereqs, e.recipe⟩ :: rest)
      else if hasRecipeA && hasRecipeB && !samePrereqs then
        .error (r.filename ++ (":").data ++ natStr r.linenr ++
          (": ambiguous recipe for target `").data ++
          ((r.targets.map Target.pat).headD []) ++
          ("` with differing prerequisites").data)
      else if samePrereqs then
        .ok (r :: rest)
      else
        match parseRuleMerge rest r with
        | .error m => .error m
        | .ok rest' => .ok (e :: rest')
    else
      match parseRuleMerge rest r with
      | .error m => .error m
      | .ok rest' => .ok (e :: rest')

/-!
  ## Old-generation rule set (`rule`, `attribSet`, `parseAttribs`,
`ruleSet.add`)
-/

/-- The old-generation attribute set, one Boolean per documented flag. -/
structure attribSet where
  delFailed : Bool
  nonstop : Bool
  forcedTimestamp : Bool
  nonvirtual : Bool
  quiet : Bool
  regex : Bool
  update : Bool
  virtual : Bool
  exclusive : Bool
deriving DecidableEq, Repr

/-- The zero value of `attribSet`. -/
def attribSet.zero : attribSet :=
  ⟨false, false, false, false, false, false, false, false, false⟩

/-- The old-generation target/prereq `pattern`.  The compiled regular
expression `rpat` is modelled by whether it is non-nil (`rpatSome`), which is
all `ruleSet.add` inspects. -/
structure pattern where
  issuffix : Bool
  spat : Str
  rpatSome : Bool
deriving DecidableEq, Repr

/-- The old-generation `rule` (field order as declared in the source). -/
structure rule where
  targets : List pattern
  attributes : attribSet
  prereqs : List Str
  shell : List Str
  recipe : Str
  command : List Str
  ismeta : Bool
  file : Str
  line : Nat
deriving DecidableEq, Repr

/-- An empty old-generation rule. -/
def rule.empty : rule :=
  ⟨[], attribSet.zero, [], [], [], [], false, [], 0⟩

/-- One attribute word of `rule.parseAttribs`: process its characters;
`P` and `S` consume the rest of the word plus all following words and return
early (`Sum.inl`); otherwise processing continues with the next word
(`Sum.inr`). -/
def parseAttribsInput (r : rule) (chars : Str) (restInputs : List Str) :
    Except Char (Sum rule rule) :=
  match chars with
  | [] => .ok (.inr r)
  | c :: cs =>
    if c = 'D' then
      parseAttribsInput
        ⟨r.targets, ⟨true, r.attributes.nonstop, r.attributes.forcedTimestamp,
          r.attributes.nonvirtual, r.attributes.quiet, r.attributes.regex,
          r.attributes.update, r.attributes.virtual, r.attributes.exclusive⟩,
         r.prereqs, r.shell, r.recipe, r.command, r.ismeta, r.file, r.line⟩
        cs restInputs
    else if c = 'E' then
      parseAttribsInput
        ⟨r.targets, ⟨r.attributes.delFailed, true, r.attributes.forcedTimestamp,
          r.attributes.nonvirtual, r.attributes.quiet, r.attributes.regex,
          r.attributes.update, r.attributes.virtual, r.attributes.exclusive⟩,
         r.prereqs, r.shell, r.recipe, r.command, r.ismeta, r.file, r.line⟩
        cs restInputs
    else if c = 'N' then
      parseAttribsInput
        ⟨r.targets, ⟨r.attributes.delFailed, r.attributes.nonstop, true,
          r.attributes.nonvirtual, r.attributes.quiet, r.attributes.regex,
          r.attributes.update, r.attributes.virtual, r.attributes.exclusive⟩,
         r.prereqs, r.shell, r.recipe, r.command, r.ismeta, r.file, r.line⟩
        cs restInputs
    else if c = 'n' then
      parseAttribsInput
        ⟨r.targets, ⟨r.attributes.delFailed, r.attributes.nonstop,
          r.attributes.forcedTimestamp, true, r.attributes.quiet,
          r.attributes.regex, r.attributes.update, r.attributes.virtual,
          r.attributes.exclusive⟩,
         r.prereqs, r.shell, r.recipe, r.command, r.ismeta, r.file, r.line⟩
        cs restInputs
    else if c = 'Q' then
      parseAttribsInput
        ⟨r.targets, ⟨r.attributes.delFailed, r.attributes.nonstop,
          r.attributes.forcedTimestamp, r.attributes.nonvirtual, true,
          r.attributes.regex, r.attributes.update, r.attributes.virtual,
          r.attributes.exclusive⟩,
         r.prereqs, r.shell, r.recipe, r.command, r.ismeta, r.file, r.line⟩
        cs restInputs
    else if c = 'R' then
      parseAttribsInput
        ⟨r.targets, ⟨r.attributes.delFailed, r.attributes.nonstop,
          r.attributes.forcedTimestamp, r.attributes.nonvirtual,
          r.attributes.quiet, true, r.attributes.update, r.attributes.virtual,
          r.attributes.exclusive⟩,
         r.prereqs, r.shell, r.recipe, r.command, r.ismeta, r.file, r.line⟩
        cs restInputs
    else if c = 'U' then
      parseAttribsInput
        ⟨r.targets, ⟨r.attributes.delFailed, r.attributes.nonstop,
          r.attributes.forcedTimestamp, r.attributes.nonvirtual,
          r.attributes.quiet, r.attributes.regex, true, r.attributes.virtual,
          r.attributes.exclusive⟩,
         r.prereqs, r.shell, r.recipe, r.command, r.ismeta, r.file, r.line⟩
        cs restInputs
    else if c = 'V' then
      parseAttribsInput
        ⟨r.targets, ⟨r.attributes.delFailed, r.attributes.nonstop,
          r.attributes.forcedTimestamp, r.attributes.nonvirtual,
          r.attributes.quiet, r.attributes.regex, r.attributes.update, true,
          r.attributes.exclusive⟩,
         r.prereqs, r.shell, r.recipe, r.command, r.ismeta, r.file, r.line⟩
        cs restInputs
    else if c = 'X' then
      parseAttribsInput
        ⟨r.targets, ⟨r.attributes.delFailed, r.attributes.nonstop,
          r.attributes.forcedTimestamp, r.attributes.nonvirtual,
          r.attributes.quiet, r.attributes.regex, r.attributes.update,
          r.attributes.virtual, true⟩,
         r.prereqs, r.shell, r.recipe, r.command, r.ismeta, r.file, r.line⟩
        cs restInputs
    else if c = 'P' then
      .ok (.inl ⟨r.targets, r.attributes, r.prereqs, r.shell, r.recipe,
        r.command ++ (if cs.isEmpty then [] else [cs]) ++ restInputs,
        r.ismeta, r.file, r.line⟩)
    else if c = 'S' then
      .ok (.inl ⟨r.targets, r.attributes, r.prereqs,
        r.shell ++ (if cs.isEmpty then [] else [cs]) ++ restInputs,
        r.recipe, r.command, r.ismeta, r.file, r.line⟩)
    else
      .error c

/-- Model of `rule.parseAttribs` (old generation): `D` sets `delFailed`,
`E` sets `nonstop`, and so on, per the documented table. -/
def parseAttribs (r : rule) (inputs : List Str) : Except Char rule :=
  match inputs with
  | [] => .ok r
  | input :: rest =>
    match parseAttribsInput r input rest with
    | .error c => .error c
    | .ok (.inl r') => .ok r'
    | .ok (.inr r') => parseAttribs r' rest

/-- The old-generation rule set: the rules plus the target name index
(constant targets only). -/
structure ruleSet where
  rules : List rule
  targetrules : Str → List Nat

/-- Model of `ruleSet.add`: append the rule unconditionally (no merging of
any kind) and index its non-regex target names. -/
def ruleSetAdd (rs : ruleSet) (r : rule) : ruleSet :=
  let k := rs.rules.length
  ⟨rs.rules ++ [r],
   fun s => rs.targetrules s ++
     (r.targets.filter (fun t => !t.rpatSome && decide (t.spat = s))).map
       (fun _ => k)⟩

/-!
  ## Claims about attributes and rule merging (C4, C1)
-/

/-- C4: the claim (and the attribute table in the source's own comment, and
the old-generation `parseAttribs`) says `D` marks delete-on-failure and `E`
marks continue-on-error.  The new `parseAttributes` sets them the other way
around: `D` sets `RuleContinue` and `E` sets `RuleDelete`, while the
old-generation `parseAttribs` sets `delFailed` for `D` and `nonstop` for
`E`. -/
theorem c4_d_and_e_swapped_in_reader :
    parseAttributes 10 (("D:").data) RuleAttrs.zero [] =
      .ok (.okA [] ⟨false, true, false, false, false, false, false, false⟩ []) ∧
    parseAttributes 10 (("E:").data) RuleAttrs.zero [] =
      .ok (.okA [] ⟨true, false, false, false, false, false, false, false⟩ []) ∧
    parseAttribs rule.empty [("D").data] =
      .ok ⟨[], ⟨true, false, false, false, false, false, false, false, false⟩,
        [], [], [], [], false, [], 0⟩ ∧
    parseAttribs rule.empty [("E").data] =
      .ok ⟨[], ⟨false, true, false, false, false, false, false, false, false⟩,
        [], [], [], [], false, [], 0⟩ := by
  refine ⟨by decide, by decide, by decide, by decide⟩

/-- The constant target `foo` shared by the merge examples. -/
def c1TargetFoo : Target := (CompileTarget (("foo").data)).1

/-- Existing rule `foo: a` with no recipe. -/
def c1ExistingNoRecipe : Rule :=
  ⟨("mkfile").data, 1, RuleAttrs.zero, [], [c1TargetFoo], [("a").data], []⟩

/-- New rule `foo: b` carrying recipe `R`. -/
def c1NewWithRecipe : Rule :=
  ⟨("mkfile").data, 2, RuleAttrs.zero, [], [c1TargetFoo], [("b").data],
    ("R").data⟩

/-- Existing rule `foo: a` with recipe `R1`. -/
def c1ExistingR1 : Rule :=
  ⟨("mkfile").data, 1, RuleAttrs.zero, [], [c1TargetFoo], [("a").data],
    ("R1").data⟩

/-- New rule `foo: b` with recipe `R2`. -/
def c1NewR2 : Rule :=
  ⟨("mkfile").data, 2, RuleAttrs.zero, [], [c1TargetFoo], [("b").data],
    ("R2").data⟩

/-- New rule `foo: a` with recipe `R2` (same prereqs as `c1ExistingR1`). -/
def c1NewR2SamePrereqs : Rule :=
  ⟨("mkfile").data, 2, RuleAttrs.zero, [], [c1TargetFoo], [("a").data],
    ("R2").data⟩

/-- New recipe-less rule `foo: b`. -/
def c1NewNoRecipe : Rule :=
  ⟨("mkfile").data, 2, RuleAttrs.zero, [], [c1TargetFoo], [("b").data], []⟩

/-- An old-generation rule with constant target `foo` and prereq `a`. -/
def c1OldFooA : rule :=
  ⟨[⟨false, ("foo").data, false⟩], attribSet.zero, [("a").data], [], [],
    [], false, ("mkfile").data, 1⟩

/-- An old-generation rule with constant target `foo`, prereq `b` and a
recipe. -/
def c1OldFooB : rule :=
  ⟨[⟨false, ("foo").data, false⟩], attribSet.zero, [("b").data], [],
    ("R").data, [], false, ("mkfile").data, 2⟩

/-- C1: evaluated at the claim's own case (a) — existing rule without
recipe, new rule with one — `parseRuleMerge` appends the new prereqs to the
existing rule but keeps the existing empty recipe, DISCARDING the new
recipe, contrary to the claim's "the new recipe is kept".  Case (b)
(ambiguous) does error, and case (c) (equal prereqs) does override; but when
the targets match and no case applies (here: neither rule has a recipe and
the prereqs differ, exactly the spec's `foo:` scenario, since recipes attach
only after the header is parsed), a SECOND rule with the same targets is
appended.  The old-generation `ruleSet.add` never merges at all: it appends
unconditionally. -/
theorem c1_merge_behavior_at_failing_input :
    parseRuleMerge [c1ExistingNoRecipe] c1NewWithRecipe =
      .ok [⟨("mkfile").data, 1, RuleAttrs.zero, [], [c1TargetFoo],
        [("a").data, ("b").data], []⟩] ∧
    c1NewWithRecipe.recipe ≠ [] ∧
    parseRuleMerge [c1ExistingR1] c1NewR2 =
      .error (("mkfile:2: ambiguous recipe for target `foo` with differing prerequisites").data) ∧
    parseRuleMerge [c1ExistingR1] c1NewR2SamePrereqs = .ok [c1NewR2SamePrereqs] ∧
    parseRuleMerge [c1ExistingNoRecipe] c1NewNoRecipe =
      .ok [c1ExistingNoRecipe, c1NewNoRecipe] ∧
    (ruleSetAdd ⟨[c1OldFooA], fun _ => []⟩ c1OldFooB).rules =
      [c1OldFooA, c1OldFooB] := by
  refine ⟨by decide, by decide, by decide, by decide, by decide, by decide⟩

/-!
  ## Lexer recipe blocks (`lex.go`: `lexTopLevel`'s whitespace prelude,
`lexRecipe`, `onlyWhitespace`) — claim C8

The lexer is a state machine over a rune reader tracking `col` (runes since
the last newline) and `indented` (nothing but space/tab since the last
newline).  A lexer state is modelled as `(col, indented)`; `next` updates it
by `charStep`.  `lexRecipe` is entered from `lexTopLevel` exactly when, after
the whitespace runs, the cursor is at a non-whitespace character of an
indented line (`l.indented && l.col > 0`), with the token value empty — so
a whitespace-only recipe block is consumed entirely by the top-level skips
and `lexRecipe` never runs for it.  The model covers the non-barewords mode
(the one used for mkfiles; barewords mode differs only at the Newline
branch). -/

/-- Model of `onlyWhitespace` exactly as written in the source:
`!slices.ContainsFunc(s, unicode.IsSpace)` — i.e. true when the value
contains NO whitespace, the opposite of its name and doc comment.  The
inversion is unobservable in `lexRecipe` because every reachable recipe
value starts with a non-whitespace rune and ends with a newline, making both
the correct and the written predicate false. -/
def onlyWhitespace (s : Str) : Bool :=
  !(s.any goIsSpace)

/-- The `next()` bookkeeping of the reader: a newline resets the column and
sets `indented`; any other rune advances the column and clears `indented`
unless it is a space or tab. -/
def charStep (st : Nat × Bool) (c : Char) : Nat × Bool :=
  if c = '\n' then (0, true)
  else (st.1 + 1, st.2 && (c = ' ' || c = '\t'))

/-- Folding `charStep` over a consumed run. -/
def stepAll (st : Nat × Bool) (cs : Str) : Nat × Bool :=
  cs.foldl charStep st

/-- A `next()`-loop consuming the maximal prefix satisfying `p`
(`acceptRun`/`skipRun`/`acceptUntilOrEof` are all of this shape): the
consumed run, the updated reader state and the rest. -/
def spanConsume (p : Char → Bool) (st : Nat × Bool) (input : Str) :
    Str × (Nat × Bool) × Str :=
  (input.takeWhile p, stepAll st (input.takeWhile p), input.dropWhile p)

/-- The character set of `skipRun(" \t\r")`. -/
def wsS1 : List Char := [' ', '\t', '\r']

/-- The character set of `skipRun(" \t\r\n")` / `acceptRun(" \t\n\r")`. -/
def wsS2 : List Char := [' ', '\t', '\r', '\n']

/-- The loop of `lexRecipe`: accept the rest of the line
(`acceptUntilOrEof("\n")`), then a whitespace run (`acceptRun(" \t\n\r")`),
and stop once the cursor is unindented or at column zero.  When the input is
exhausted while still indented at a positive column, the Go loop would spin
(the reader's synthesized trailing newline prevents this); fuel models
that. -/
def lexRecipeLoop : Nat → Str → (Nat × Bool) → Str → GoM (Str × (Nat × Bool) × Str)
  | 0, _, _, _ => .error .fuelOut
  | fuel + 1, value, st, input =>
    let s1 := spanConsume (fun c => c ≠ '\n') st input
    let s2 := spanConsume (charIn wsS2) s1.2.1 s1.2.2
    if !s2.2.1.2 || s2.2.1.1 = 0 then .ok (value ++ s1.1 ++ s2.1, s2.2.1, s2.2.2)
    else lexRecipeLoop fuel (value ++ s1.1 ++ s2.1) s2.2.1 s2.2.2

/-- The emission step of `lexRecipe`: the Recipe token carrying the
accumulated value, emitted under the (inverted) `onlyWhitespace` guard. -/
def lexRecipeEmit (value : Str) : Option Str :=
  if !(onlyWhitespace value) then some value else none

/-- The whitespace prelude of `lexTopLevel` (its leading `for` loop):
skip space/tab/CR, emit a Newline token when ending a non-empty line, skip
all whitespace, consume `\`-newline continuations and repeat; afterwards the
lexer enters `lexRecipe` iff `indented && col > 0`.  Returns the number of
Newline tokens emitted, the reader state, the rest of the input, and the
recipe-entry flag. -/
def lexTopLevelWs : Nat → (Nat × Bool) → Str → GoM (Nat × (Nat × Bool) × Str × Bool)
  | 0, _, _ => .error .fuelOut
  | fuel + 1, st, input =>
    let s1 := spanConsume (charIn wsS1) st input
    let nlStep : Nat × (Nat × Bool) × Str :=
      match s1.2.2 with
      | '\n' :: t => if !s1.2.1.2 then (1, charStep s1.2.1 '\n', t) else (0, s1.2.1, s1.2.2)
      | _ => (0, s1.2.1, s1.2.2)
    let s3 := spanConsume (charIn wsS2) nlStep.2.1 nlStep.2.2
    match s3.2.2 with
    | '\\' :: '\n' :: t =>
      (match lexTopLevelWs fuel ((charStep (charStep s3.2.1 '\\') '\n').1, false) t with
        | .error e => .error e
        | .ok (nl2, st5, rest, ent) => .ok (nlStep.1 + nl2, st5, rest, ent))
    | _ => .ok (nlStep.1, s3.2.1, s3.2.2, s3.2.1.2 && decide (0 < s3.2.1.1))

/-- A recipe block: the first line's content from its first non-whitespace
rune (where `lexRecipe` is entered), a newline, then further lines each as
indentation plus content plus newline. -/
def mkBlock (body0 : Str) (ls : List (Str × Str)) : Str :=
  body0 ++ '\n' :: (ls.map (fun p => p.1 ++ p.2 ++ ['\n'])).flatten

/-- A well-formed continuation line of a recipe block: nonempty space/tab
indentation, nonempty content starting with a non-whitespace rune, no
newline inside the content. -/
def goodLine (p : Str × Str) : Prop :=
  p.1 ≠ [] ∧ (∀ c ∈ p.1, c = ' ' ∨ c = '\t') ∧ p.2 ≠ [] ∧
  (∀ c, p.2.head? = some c → charIn wsS2 c = false) ∧ '\n' ∉ p.2

/-- If the head of `ys` fails `p`, `takeWhile` over `xs ++ ys` stops within
`xs`. -/
theorem takeWhile_append_headNot (p : Char → Bool) (xs ys : Str)
    (hy : ∀ c, ys.head? = some c → p c = false) :
    (xs ++ ys).takeWhile p = xs.takeWhile p ∧
    (xs ++ ys).dropWhile p = xs.dropWhile p ++ ys := by
  induction xs with
  | nil =>
    cases ys with
    | nil => simp
    | cons c t =>
      have := hy c rfl
      simp [List.takeWhile_cons, List.dropWhile_cons, this]
  | cons x tl ih =>
    by_cases hpx : p x = true
    · simp [List.takeWhile_cons, List.dropWhile_cons, hpx, ih.1, ih.2]
    · simp only [Bool.not_eq_true] at hpx
      simp [List.takeWhile_cons, List.dropWhile_cons, hpx]

/-- `spanConsume` over `xs ++ ys` with all of `xs` accepted and the head of
`ys` rejected consumes exactly `xs`. -/
theorem spanConsume_split (p : Char → Bool) (st : Nat × Bool) (xs ys : Str)
    (hx : ∀ c ∈ xs, p c = true) (hy : ∀ c, ys.head? = some c → p c = false) :
    spanConsume p st (xs ++ ys) = (xs, stepAll st xs, ys) := by
  have h1 := takeWhile_append_headNot p xs ys hy
  have hxtake : xs.takeWhile p = xs := List.takeWhile_eq_self_iff.mpr hx
  have hxdrop : xs.dropWhile p = [] := List.dropWhile_eq_nil_iff.mpr hx
  simp [spanConsume, h1.1, h1.2, hxtake, hxdrop]

/-- Consuming a run that ends with a newline lands at column zero,
indented. -/
theorem stepAll_last_newline (st : Nat × Bool) (xs : Str)
    (h : xs.getLast? = some '\n') : stepAll st xs = (0, true) := by
  obtain ⟨l, rfl⟩ := List.getLast?_eq_some_iff.mp h
  simp [stepAll, List.foldl_append, charStep]

/-- Consuming a space/tab indentation run from an indented state keeps the
state indented and advances the column by its length. -/
theorem stepAll_indent (k : Nat) (ind : Str)
    (h : ∀ c ∈ ind, c = ' ' ∨ c = '\t') :
    stepAll (k, true) ind = (k + ind.length, true) := by
  induction ind generalizing k with
  | nil => simp [stepAll]
  | cons c t ih =>
    have hc := h c (by simp)
    have hstep : charStep (k, true) c = (k + 1, true) := by
      rcases hc with hc | hc <;> simp [charStep, hc]
    have ht : ∀ c ∈ t, c = ' ' ∨ c = '\t' := fun c hc => h c (by simp [hc])
    show stepAll (charStep (k, true) c) t = _
    rw [hstep, ih (k + 1) ht]
    simp
    omega

/-- The head of `dropWhile p l` fails `p`. -/
theorem dropWhile_head_false (p : Char → Bool) (l : Str) (c : Char)
    (h : (l.dropWhile p).head? = some c) : p c = false := by
  induction l with
  | nil => simp at h
  | cons x tl ih =>
    by_cases hpx : p x = true
    · rw [List.dropWhile_cons_of_pos hpx] at h
      exact ih h
    · simp only [Bool.not_eq_true] at hpx
      rw [List.dropWhile_cons_of_neg (by simp [hpx])] at h
      simp at h
      rw [← h]
      exact hpx

/-- Subset of character sets: everything skipped by `skipRun(" \t\r")` is
also in the `" \t\r\n"` set. -/
theorem wsS1_subset (c : Char) (h : charIn wsS1 c = true) : charIn wsS2 c = true := by
  simp [charIn, wsS1] at h
  rcases h with h | h | h <;> simp [charIn, wsS2, h]

/-- Running `lexRecipe`'s loop on a well-formed recipe block consumes
exactly the block, appends it to the token value, and stops at column zero
of the following unindented text. -/
theorem lexRecipeLoop_block (ls : List (Str × Str)) (fuel : Nat)
    (value body0 rest : Str) (col0 : Nat)
    (hfuel : ls.length < fuel)
    (hb0 : '\n' ∉ body0)
    (hls : ∀ p ∈ ls, goodLine p)
    (hrest : ∀ c, rest.head? = some c → charIn wsS2 c = false) :
    lexRecipeLoop fuel value (col0, true) (mkBlock body0 ls ++ rest) =
      .ok (value ++ mkBlock body0 ls, (0, true), rest) := by
  induction ls generalizing fuel value body0 col0 with
  | nil =>
    obtain ⟨f, rfl⟩ : ∃ f, fuel = f + 1 := ⟨fuel - 1, by omega⟩
    have hshape : mkBlock body0 [] ++ rest = body0 ++ ('\n' :: rest) := by
      simp [mkBlock]
    have hs1 : spanConsume (fun c => decide (¬c = '\n')) (col0, true)
        (body0 ++ ('\n' :: rest)) =
        (body0, stepAll (col0, true) body0, '\n' :: rest) := by
      apply spanConsume_split
      · intro c hc
        simp
        intro hcn
        exact hb0 (hcn ▸ hc)
      · intro c hc
        simp at hc
        simp [← hc]
    have hs2 : spanConsume (charIn wsS2) (stepAll (col0, true) body0)
        ('\n' :: rest) =
        (['\n'], stepAll (stepAll (col0, true) body0) ['\n'], rest) := by
      have := spanConsume_split (charIn wsS2) (stepAll (col0, true) body0)
        ['\n'] rest (by intro c hc; simp at hc; simp [hc, charIn, wsS2]) hrest
      simpa using this
    have hnl : stepAll (stepAll (col0, true) body0) ['\n'] = (0, true) := by
      simp [stepAll, charStep]
    simp only [lexRecipeLoop, hshape, hs1, hs2, hnl]
    simp [mkBlock]
  | cons hd tl ih =>
    obtain ⟨f, rfl⟩ : ∃ f, fuel = f + 1 := ⟨fuel - 1, by omega⟩
    obtain ⟨ind, bod⟩ := hd
    obtain ⟨hind_ne, hind_ws, hbod_ne, hbod_head, hbod_nl⟩ :=
      hls (ind, bod) (by simp)
    have htl : ∀ p ∈ tl, goodLine p := fun p hp => hls p (by simp [hp])
    have hshape : mkBlock body0 ((ind, bod) :: tl) ++ rest =
        body0 ++ (('\n' :: ind) ++ (mkBlock bod tl ++ rest)) := by
      simp [mkBlock]
    have hblockhead : ∀ c, (mkBlock bod tl ++ rest).head? = some c →
        charIn wsS2 c = false := by
      intro c hc
      obtain ⟨b0, bs, rfl⟩ : ∃ b0 bs, bod = b0 :: bs := by
        cases bod with
        | nil => exact absurd rfl hbod_ne
        | cons b0 bs => exact ⟨b0, bs, rfl⟩
      simp [mkBlock] at hc
      exact hc ▸ hbod_head b0 rfl
    have hs1 : spanConsume (fun c => decide (¬c = '\n')) (col0, true)
        (body0 ++ (('\n' :: ind) ++ (mkBlock bod tl ++ rest))) =
        (body0, stepAll (col0, true) body0,
          ('\n' :: ind) ++ (mkBlock bod tl ++ rest)) := by
      apply spanConsume_split
      · intro c hc
        simp
        intro hcn
        exact hb0 (hcn ▸ hc)
      · intro c hc
        simp at hc
        simp [← hc]
    have hs2 : spanConsume (charIn wsS2) (stepAll (col0, true) body0)
        (('\n' :: ind) ++ (mkBlock bod tl ++ rest)) =
        ('\n' :: ind, stepAll (stepAll (col0, true) body0) ('\n' :: ind),
          mkBlock bod tl ++ rest) := by
      apply spanConsume_split
      · intro c hc
        simp at hc
        rcases hc with hc | hc
        · simp [hc, charIn, wsS2]
        · rcases hind_ws c hc with h | h <;> simp [h, charIn, wsS2]
      · exact hblockhead
    have hst2 : stepAll (stepAll (col0, true) body0) ('\n' :: ind) =
        (ind.length, true) := by
      show stepAll (charStep (stepAll (col0, true) body0) '\n') ind = _
      rw [show charStep (stepAll (col0, true) body0) '\n' = (0, true) from by
        simp [charStep]]
      simpa using stepAll_indent 0 ind hind_ws
    have hind_pos : ind.length ≠ 0 := by
      intro h
      exact hind_ne (List.eq_nil_of_length_eq_zero h)
    simp only [lexRecipeLoop, hshape, hs1, hs2, hst2]
    rw [if_neg (by simp [hind_pos])]
    rw [ih f (value ++ body0 ++ '\n' :: ind) bod ind.length
      (by simp at hfuel ⊢; omega) hbod_nl htl]
    simp [mkBlock]

/-- A recipe block's value is emitted: it contains its newline, so the
(inverted) `onlyWhitespace` guard passes and exactly one Recipe token with
the block as value is produced. -/
theorem lexRecipeEmit_block (body0 : Str) (ls : List (Str × Str)) :
    lexRecipeEmit (mkBlock body0 ls) = some (mkBlock body0 ls) := by
  have hany : (mkBlock body0 ls).any goIsSpace = true :=
    List.any_eq_true.mpr ⟨'\n', by simp [mkBlock], by decide⟩
  simp [lexRecipeEmit, onlyWhitespace, hany]

/-- The whitespace prelude of `lexTopLevel`, started at the beginning of a
line, consumes a whitespace-only block ending in a newline without entering
the recipe state: the recipe-entry condition `indented && col > 0` fails
because the stop point is at column zero. -/
theorem lexTopLevelWs_wsBlock (fuel : Nat) (ws rest : Str)
    (hws : ∀ c ∈ ws, charIn wsS2 c = true)
    (hlast : ws.getLast? = some '\n')
    (hrest : ∀ c, rest.head? = some c → charIn wsS2 c = false ∧ c ≠ '\\') :
    ∃ nl, lexTopLevelWs (fuel + 1) (0, true) (ws ++ rest) =
      .ok (nl, (0, true), rest, false) := by
  have hrest1 : ∀ c, rest.head? = some c → charIn wsS1 c = false := by
    intro c hc
    have h2 := (hrest c hc).1
    cases h : charIn wsS1 c
    · rfl
    · exact absurd (wsS1_subset c h) (by simp [h2])
  have hrest2 : ∀ c, rest.head? = some c → charIn wsS2 c = false :=
    fun c hc => (hrest c hc).1
  -- decompose ws at the " \t\r" prefix
  have hsplitTake := takeWhile_append_headNot (charIn wsS1) ws rest hrest1
  have hwsdecomp : ws.takeWhile (charIn wsS1) ++ ws.dropWhile (charIn wsS1) = ws :=
    List.takeWhile_append_dropWhile (charIn wsS1) ws
  have hmemnl : '\n' ∈ ws := by
    obtain ⟨l, rfl⟩ := List.getLast?_eq_some_iff.mp hlast
    simp
  have hdropne : ws.dropWhile (charIn wsS1) ≠ [] := by
    intro h
    have htw : ws.takeWhile (charIn wsS1) = ws := by
      rw [h, List.append_nil] at hwsdecomp
      exact hwsdecomp
    have hnl : '\n' ∈ ws.takeWhile (charIn wsS1) := by
      rw [htw]
      exact hmemnl
    have := List.mem_takeWhile_imp hnl
    simp [charIn, wsS1] at this
  obtain ⟨c0, b', hb⟩ : ∃ c0 b', ws.dropWhile (charIn wsS1) = c0 :: b' := by
    cases h : ws.dropWhile (charIn wsS1) with
    | nil => exact absurd h hdropne
    | cons c0 b' => exact ⟨c0, b', rfl⟩
  have hc0 : c0 = '\n' := by
    have h1 : charIn wsS1 c0 = false :=
      dropWhile_head_false (charIn wsS1) ws c0 (by rw [hb]; rfl)
    have h2 : c0 ∈ ws := by
      have : c0 ∈ ws.dropWhile (charIn wsS1) := by rw [hb]; simp
      rw [← hwsdecomp]
      exact List.mem_append_right _ this
    have h3 : charIn wsS2 c0 = true := hws c0 h2
    simp [charIn, wsS1] at h1
    simp [charIn, wsS2] at h3
    rcases h3 with h | h | h | h <;> simp [h] at h1 ⊢
  subst hc0
  have hb'mem : ∀ c ∈ b', charIn wsS2 c = true := by
    intro c hc
    apply hws
    rw [← hwsdecomp, hb]
    exact List.mem_append_right _ (by simp [hc])
  have hb'last : b' ≠ [] → b'.getLast? = some '\n' := by
    intro hne
    have hw : ws = (ws.takeWhile (charIn wsS1) ++ ['\n']) ++ b' := by
      conv_lhs => rw [← hwsdecomp]
      rw [hb]
      simp
    have hcopy := hlast
    rw [hw, List.getLast?_append_of_ne_nil _ hne] at hcopy
    exact hcopy
  -- the final reader state after consuming the remainder b'
  have hst3 : stepAll (0, true) b' = (0, true) := by
    cases hb' : b' with
    | nil => simp [stepAll]
    | cons x xs =>
      exact stepAll_last_newline _ _ (hb' ▸ hb'last (by simp [hb']))
  have hs1 : spanConsume (charIn wsS1) (0, true) (ws ++ rest) =
      (ws.takeWhile (charIn wsS1),
        stepAll (0, true) (ws.takeWhile (charIn wsS1)),
        '\n' :: (b' ++ rest)) := by
    simp [spanConsume, hsplitTake.1, hsplitTake.2, hb]
  simp only [lexTopLevelWs, hs1]
  cases hind : (stepAll (0, true) (ws.takeWhile (charIn wsS1))).2 with
  | false =>
    have hs3 : spanConsume (charIn wsS2)
        (charStep (stepAll (0, true) (ws.takeWhile (charIn wsS1))) '\n')
        (b' ++ rest) = (b', (0, true), rest) := by
      rw [show charStep (stepAll (0, true) (ws.takeWhile (charIn wsS1))) '\n' =
        (0, true) from by simp [charStep]]
      rw [spanConsume_split (charIn wsS2) (0, true) b' rest hb'mem hrest2, hst3]
    refine ⟨1, ?_⟩
    simp only [hind, Bool.not_false, if_true, hs3]
    cases rest with
    | nil => simp
    | cons c t =>
      have hc := (hrest c rfl).2
      split
      · rename_i t2 heq
        injection heq with hc1 ht1
        exact absurd hc1 hc
      · rfl
  | true =>
    have hs3 : spanConsume (charIn wsS2)
        (stepAll (0, true) (ws.takeWhile (charIn wsS1)))
        ('\n' :: (b' ++ rest)) = ('\n' :: b', (0, true), rest) := by
      have := spanConsume_split (charIn wsS2)
        (stepAll (0, true) (ws.takeWhile (charIn wsS1))) ('\n' :: b') rest
        (by
          intro c hc
          simp at hc
          rcases hc with hc | hc
          · simp [hc, charIn, wsS2]
          · exact hb'mem c hc)
        hrest2
      have hfold : stepAll (stepAll (0, true) (ws.takeWhile (charIn wsS1)))
          ('\n' :: b') = (0, true) := by
        show stepAll (charStep _ '\n') b' = _
        rw [show charStep (stepAll (0, true) (ws.takeWhile (charIn wsS1))) '\n' =
          (0, true) from by simp [charStep]]
        exact hst3
      rw [hfold] at this
      simpa using this
    refine ⟨0, ?_⟩
    simp only [hind, Bool.not_true, Bool.false_eq_true, if_false, hs3]
    cases rest with
    | nil => simp
    | cons c t =>
      have hc := (hrest c rfl).2
      split
      · rename_i t2 heq
        injection heq with hc1 ht1
        exact absurd hc1 hc
      · rfl

/-- C8: recipe-block lexing.  First conjunct (whitespace-only block): the
whitespace prelude of `lexTopLevel`, started at the beginning of the line
after a rule header, consumes a whitespace-only block (ending in a newline,
followed by an unindented non-continuation character) without ever entering
the `lexRecipe` state — so no Recipe token is produced for it.  Second
conjunct (block with content): entered where `lexTopLevel` enters it — at
the first non-whitespace rune of an indented line (`col > 0`, indented, empty
value) — `lexRecipe` consumes exactly the block (the raw body including its
internal newlines, the trailing newline, and the indentation of continuation
lines) and emits exactly one Recipe token whose value is that body. -/
theorem c8_recipe_block_lexing :
    (∀ (fuel : Nat) (ws rest : Str),
      (∀ c ∈ ws, charIn wsS2 c = true) →
      ws.getLast? = some '\n' →
      (∀ c, rest.head? = some c → charIn wsS2 c = false ∧ c ≠ '\\') →
      ∃ nl, lexTopLevelWs (fuel + 1) (0, true) (ws ++ rest) =
        .ok (nl, (0, true), rest, false)) ∧
    (∀ (ls : List (Str × Str)) (fuel : Nat) (body0 rest : Str) (col0 : Nat),
      ls.length < fuel →
      0 < col0 →
      (∀ c, body0.head? = some c → charIn wsS2 c = false) →
      '\n' ∉ body0 →
      (∀ p ∈ ls, goodLine p) →
      (∀ c, rest.head? = some c → charIn wsS2 c = false) →
      lexRecipeLoop fuel [] (col0, true) (mkBlock body0 ls ++ rest) =
        .ok (mkBlock body0 ls, (0, true), rest) ∧
      lexRecipeEmit (mkBlock body0 ls) = some (mkBlock body0 ls)) := by
  constructor
  · exact lexTopLevelWs_wsBlock
  · intro ls fuel body0 rest col0 h1 _ _ h4 h5 h6
    refine ⟨?_, lexRecipeEmit_block body0 ls⟩
    simpa using lexRecipeLoop_block ls fuel [] body0 rest col0 h1 h4 h5 h6

/-- C8 witness: the whitespace block `" \t\n"` before the unindented text
`x:` is skipped with no recipe entry, and the two-line recipe block
`echo hi\n\techo b\n` before unindented `x` yields exactly one Recipe token
carrying the block. -/
theorem c8_recipe_block_lexing_witness :
    (∃ nl, lexTopLevelWs 3 (0, true) ((" \t\n").data ++ ("x:").data) =
      .ok (nl, (0, true), ("x:").data, false)) ∧
    (lexRecipeLoop 5 [] (1, true)
        (mkBlock (("echo hi").data) [(("\t").data, ("echo b").data)] ++ ("x").data) =
      .ok (mkBlock (("echo hi").data) [(("\t").data, ("echo b").data)],
        (0, true), ("x").data) ∧
    lexRecipeEmit (mkBlock (("echo hi").data) [(("\t").data, ("echo b").data)]) =
      some (mkBlock (("echo hi").data) [(("\t").data, ("echo b").data)])) := by
  constructor
  · exact c8_recipe_block_lexing.1 2 ((" \t\n").data) (("x:").data)
      (by decide) (by decide)
      (by intro c hc; simp at hc; subst hc; exact ⟨by decide, by decide⟩)
  · exact c8_recipe_block_lexing.2 [(("\t").data, ("echo b").data)] 5
      (("echo hi").data) (("x").data) 1
      (by decide) (by decide)
      (by intro c hc; simp at hc; subst hc; decide)
      (by decide)
      (by
        intro p hp
        simp at hp
        subst hp
        refine ⟨by decide, by decide, by decide, ?_, by decide⟩
        intro c hc
        simp at hc
        subst hc
        decide)
      (by intro c hc; simp at hc; subst hc; decide)
